import Mathlib

/-!
Verification of the wake-word engine in
`mycroft_dinkum_listener/plugins/ww_tflite.py`.

The Python source is shallowly embedded: audio bytes are `List ℕ`
(each entry a byte value `< 256`), floating-point samples and
probabilities are `ℚ`, machine integers are `Int`/`Nat`.  Python's
floor division `//` on ints is `Int.fdiv`; Python's `int(...)` and
numpy's float-to-integer `astype` casts truncate toward zero; numpy's
`astype("<i2")` wraps the truncated value modulo 2^16 (two's
complement).  The external collaborators (the MFCC feature extractor
`sonopy.mfcc_spec` and the TFLite scorer) are modelled as function
parameters, as the design treats them: pure functions from samples to
feature frames and from the feature tensor to a probability.
-/

/-- Truncation toward zero on `ℚ`, the semantics of Python's `int(x)`
and of numpy's float-to-signed-integer cast. -/
def truncQ (q : ℚ) : Int := if 0 ≤ q then ⌊q⌋ else -⌊-q⌋

/-- `MAX_WAV_VALUE = 32768` (ww_tflite.py line 43). -/
def MAX_WAV_VALUE : Int := 32768

/-- The signed 16-bit integer stored as two little-endian bytes
(`dtype="<i2"`): low byte first, two's complement. -/
def int16OfBytes (lo hi : Nat) : Int :=
  let u : Int := lo + 256 * hi
  if u < 32768 then u else u - 65536

/-- `buffer_to_audio` (ww_tflite.py lines 53-57):
`np.frombuffer(audio_buffer, dtype="<i2").astype(np.float32) / 32768.0`.
`np.frombuffer` fails fast (no partial decode) when the byte length is
not a multiple of the 2-byte element size; this is the `none` case. -/
def buffer_to_audio : List Nat → Option (List ℚ)
  | [] => some []
  | [_] => none
  | lo :: hi :: rest =>
    match buffer_to_audio rest with
    | none => none
    | some l => some ((int16OfBytes lo hi : ℚ) / 32768 :: l)

/-- The signed 16-bit value produced for one sample by
`(audio * MAX_WAV_VALUE).astype("<i2")`: multiply by 32768, truncate
toward zero, wrap modulo 2^16 into `[-32768, 32767]`. -/
def sampleToInt16 (q : ℚ) : Int :=
  (truncQ (q * 32768) + 32768) % 65536 - 32768

/-- The two little-endian bytes written for one sample by
`(audio * MAX_WAV_VALUE).astype("<i2").tobytes()`. -/
def sampleToBytes (q : ℚ) : List Nat :=
  let u := ((truncQ (q * 32768)) % (65536 : Int)).toNat
  [u % 256, u / 256]

/-- `audio_to_buffer` (ww_tflite.py lines 60-62):
`(audio * MAX_WAV_VALUE).astype("<i2").tobytes()`. -/
def audio_to_buffer : List ℚ → List Nat
  | [] => []
  | q :: qs => sampleToBytes q ++ audio_to_buffer qs

/-- `ListenerParams` (ww_tflite.py lines 80-124), the fields consumed
by the derived geometry.  Durations are rationals (the Python defaults
1.5, 0.1, 0.05 taken exactly). -/
structure ListenerParams where
  buffer_t : ℚ := 3 / 2
  window_t : ℚ := 1 / 10
  hop_t : ℚ := 1 / 20
  sample_rate : Int := 16000
  sample_depth : Int := 2
  n_fft : Int := 512
  n_filt : Int := 20
  n_mfcc : Int := 13
  use_delta : Bool := false

/-- `window_samples` (line 142): `int(sample_rate * window_t + 0.5)`. -/
def ListenerParams.window_samples (p : ListenerParams) : Int :=
  truncQ ((p.sample_rate : ℚ) * p.window_t + 1 / 2)

/-- `hop_samples` (line 147): `int(sample_rate * hop_t + 0.5)`. -/
def ListenerParams.hop_samples (p : ListenerParams) : Int :=
  truncQ ((p.sample_rate : ℚ) * p.hop_t + 1 / 2)

/-- `buffer_samples` (lines 129-130):
`samples = int(sample_rate * buffer_t + 0.5);
hop_samples * (samples // hop_samples)`. -/
def ListenerParams.buffer_samples (p : ListenerParams) : Int :=
  let samples := truncQ ((p.sample_rate : ℚ) * p.buffer_t + 1 / 2)
  p.hop_samples * (Int.fdiv samples p.hop_samples)

/-- `n_features` (lines 135-137):
`1 + int(floor((buffer_samples - window_samples) / hop_samples))`. -/
def ListenerParams.n_features (p : ListenerParams) : Int :=
  1 + ⌊(((p.buffer_samples : ℚ) - (p.window_samples : ℚ)) / (p.hop_samples : ℚ))⌋

/-- A `ListenerParams` with every field at its Python default
(recreated by `_load_model`, line 237). -/
def defaultParams : ListenerParams := {}

/-- The cooldown value written by line 312:
`-(8 * 2048) // self.chunk_size` — Python floor division applied to
the negative constant `-16384`. -/
def cooldownValue (chunk_size : Int) : Int := Int.fdiv (-(8 * 2048)) chunk_size

/-- One transition of the activation state machine
(ww_tflite.py lines 303-315), given the scored probability and the
current activation counter.  Returns `(triggered, new activation)`. -/
def actStep (sensitivity : ℚ) (trigger_level chunk_size : Int) (prob : ℚ)
    (activation : Int) : Bool × Int :=
  let activated : Bool := decide (1 - sensitivity < prob)
  if activated || decide (activation < 0) then
    let a1 := activation + 1
    let triggered : Bool := decide (trigger_level < a1)
    if triggered || (activated && decide (a1 < 0)) then
      (triggered, cooldownValue chunk_size)
    else
      (false, a1)
  else if decide (0 < activation) then
    (false, activation - 1)
  else
    (false, activation)

/-- The trace of the activation state machine over a stream of scored
probabilities: for each probability, the `(triggered, activation)` pair
after that scoring step. -/
def actTrace (sensitivity : ℚ) (trigger_level chunk_size : Int) :
    Int → List ℚ → List (Bool × Int)
  | _, [] => []
  | a, p :: ps =>
    let r := actStep sensitivity trigger_level chunk_size p a
    r :: actTrace sensitivity trigger_level chunk_size r.2 ps

/-- The configuration a `TFLiteHotWordEngine` holds after `__init__` /
`_load_model` (ww_tflite.py lines 168-245): the three tunables plus the
geometry derived from `ListenerParams` (`n_features`, `n_mfcc`,
`window_bytes`, `hop_bytes`). -/
structure EngineConfig where
  sensitivity : ℚ
  trigger_level : Int
  chunk_size : Int
  n_features : Nat
  n_mfcc : Nat
  window_bytes : Nat
  hop_bytes : Nat

/-- The mutable state of a `TFLiteHotWordEngine`: the rolling MFCC
window `_inputs` (a list of `n_features` frames, each a list of
`n_mfcc` rationals), the write cursor `_inputs_idx`, the raw byte
accumulator `_chunk_buffer`, the activation counter `_activation`, the
per-call trigger flag `_is_found` and the last probability
`_probability`. -/
structure EngineState where
  inputs : List (List ℚ)
  inputs_idx : Nat
  chunk_buffer : List Nat
  activation : Int
  is_found : Bool
  probability : Option ℚ

attribute [ext] EngineState

/-- The windowing part of one iteration of the `update` loop
(ww_tflite.py lines 267-282): drop the consumed bytes, roll the rolling
buffer left when the new frames would overflow it (`np.roll` with a
negative shift is a cyclic left rotation whose wrapped rows are then
overwritten), write the new frames at `[idx, end)` and advance the
cursor.  Returns the new state together with `inputs_end_idx`, which
the loop compares with the buffer capacity.  (When the extractor
returns more frames than the whole buffer holds, the source's slice
assignment raises; that out-of-contract case is totalised here by
`Nat` truncated subtraction.) -/
def insertFrames (cfg : EngineConfig) (mfccs : List (List ℚ))
    (s : EngineState) : EngineState × Nat :=
  let n := mfccs.length
  let buf := s.chunk_buffer.drop (n * cfg.hop_bytes)
  let end0 := s.inputs_idx + n
  if cfg.n_features < end0 then
    let inputs1 := s.inputs.rotate n
    let idx1 := cfg.n_features - n
    ({ s with
        inputs := inputs1.take idx1 ++ mfccs ++ inputs1.drop cfg.n_features,
        inputs_idx := idx1 + n,
        chunk_buffer := buf }, cfg.n_features)
  else
    ({ s with
        inputs := s.inputs.take s.inputs_idx ++ mfccs ++ s.inputs.drop end0,
        inputs_idx := end0,
        chunk_buffer := buf }, end0)

/-- The `while` loop of `update` (ww_tflite.py lines 253-320), with the
feature extractor and the scorer as injected pure functions and an
explicit fuel for termination (the source relies on the extractor
consuming at least one hop per iteration).  A decode failure of the
accumulator (odd byte count) raises in the source; it stops the loop
here. -/
def updateLoop (cfg : EngineConfig) (extract : List ℚ → List (List ℚ))
    (score : List (List ℚ) → ℚ) : Nat → EngineState → EngineState
  | 0, s => s
  | Nat.succ fuel, s =>
    if s.chunk_buffer.length < cfg.window_bytes then s
    else
      match buffer_to_audio s.chunk_buffer with
      | none => s
      | some audio =>
        let r := insertFrames cfg (extract audio) s
        if r.2 < cfg.n_features then
          updateLoop cfg extract score fuel r.1
        else
          let prob := score r.1.inputs
          if prob < 0 ∨ 1 < prob then
            updateLoop cfg extract score fuel r.1
          else
            let s2 := { r.1 with probability := some prob }
            let a := actStep cfg.sensitivity cfg.trigger_level cfg.chunk_size
              prob s2.activation
            let s3 := { s2 with activation := a.2 }
            if a.1 then { s3 with is_found := true }
            else updateLoop cfg extract score fuel s3

/-- `update` (ww_tflite.py lines 247-322): clear the per-call flag and
probability, append the chunk, then run the processing loop. -/
def update (cfg : EngineConfig) (extract : List ℚ → List (List ℚ))
    (score : List (List ℚ) → ℚ) (s : EngineState) (chunk : List Nat) :
    EngineState :=
  let s0 := { s with
    is_found := false,
    chunk_buffer := s.chunk_buffer ++ chunk,
    probability := none }
  updateLoop cfg extract score (s0.chunk_buffer.length + 1) s0

/-- The state of a freshly constructed engine (`__init__` lines
202-227 together with `_load_model` lines 242-245): zeroed rolling
buffer, cursor 0, empty accumulator, activation 0, flag down, no
probability. -/
def initEngine (cfg : EngineConfig) : EngineState :=
  { inputs := List.replicate cfg.n_features (List.replicate cfg.n_mfcc 0),
    inputs_idx := 0,
    chunk_buffer := [],
    activation := 0,
    is_found := false,
    probability := none }

/-- `reset` (ww_tflite.py lines 327-334): zero the rolling buffer,
reset activation, flag, cursor and accumulator.  The model and
parameters are untouched — and so is `_probability`, which `reset`
does not assign. -/
def resetEngine (cfg : EngineConfig) (s : EngineState) : EngineState :=
  { inputs := List.replicate cfg.n_features (List.replicate cfg.n_mfcc 0),
    inputs_idx := 0,
    chunk_buffer := [],
    activation := 0,
    is_found := false,
    probability := s.probability }

/-- Run a sequence of `update` calls, recording for each call the
returned trigger flag and the probability exposed after the call. -/
def runUpdates (cfg : EngineConfig) (extract : List ℚ → List (List ℚ))
    (score : List (List ℚ) → ℚ) :
    EngineState → List (List Nat) → List (Bool × Option ℚ)
  | _, [] => []
  | s, c :: cs =>
    let s1 := update cfg extract score s c
    (s1.is_found, s1.probability) :: runUpdates cfg extract score s1 cs

/-- The cooldown value is strictly negative for any positive chunk size. -/
theorem cooldownValue_neg {cs : Int} (hcs : 1 ≤ cs) : cooldownValue cs < 0 := by
  rw [cooldownValue, Int.fdiv_eq_ediv _ (by omega)]
  exact Int.ediv_neg' (by norm_num) (by omega)

/-- `floor(16384/cs) + floor(-16384/cs) ≤ 0` for positive `cs`. -/
theorem fdiv_add_cooldownValue_nonpos {cs : Int} (hcs : 1 ≤ cs) :
    Int.fdiv 16384 cs + cooldownValue cs ≤ 0 := by
  rw [cooldownValue, Int.fdiv_eq_ediv _ (by omega), Int.fdiv_eq_ediv _ (by omega)]
  have h1 := Int.ediv_add_emod 16384 cs
  have h2 := Int.ediv_add_emod (-(8 * 2048)) cs
  have h3 := Int.emod_nonneg 16384 (show cs ≠ 0 by omega)
  have h4 := Int.emod_nonneg (-(8 * 2048)) (show cs ≠ 0 by omega)
  have h5 : cs * (16384 / cs + -(8 * 2048) / cs) ≤ cs * 0 := by
    rw [mul_zero, mul_add]
    omega
  exact le_of_mul_le_mul_left h5 (by omega)

/-- Characterization of `actStep` by propositional case analysis. -/
theorem actStep_eq (sens : ℚ) (tl cs : Int) (p : ℚ) (a : Int) :
    actStep sens tl cs p a =
      if 1 - sens < p ∨ a < 0 then
        if tl < a + 1 ∨ (1 - sens < p ∧ a + 1 < 0) then
          (decide (tl < a + 1), cooldownValue cs)
        else (false, a + 1)
      else if 0 < a then (false, a - 1)
      else (false, a) := by
  by_cases h1 : 1 - sens < p <;> by_cases h2 : a < 0 <;>
    by_cases h3 : tl < a + 1 <;> by_cases h4 : a + 1 < 0 <;>
    simp [actStep, h1, h2, h3, h4]

/-- One step keeps the activation counter inside
`[cooldownValue cs, trigger_level]`. -/
theorem actStep_bounds {sens : ℚ} {tl cs : Int} (hcs : 1 ≤ cs) (htl : 0 ≤ tl)
    {p : ℚ} {a : Int} (h1 : cooldownValue cs ≤ a) (h2 : a ≤ tl) :
    cooldownValue cs ≤ (actStep sens tl cs p a).2 ∧
      (actStep sens tl cs p a).2 ≤ tl := by
  have hc := cooldownValue_neg hcs
  rw [actStep_eq]
  split_ifs with g1 g2 g3 <;> simp <;> omega

/-- One step raises the activation counter by at most one, and never
drops it below the cooldown value. -/
theorem actStep_growth {sens : ℚ} {tl cs : Int} (hcs : 1 ≤ cs)
    {p : ℚ} {a : Int} (h1 : cooldownValue cs ≤ a) :
    (actStep sens tl cs p a).2 ≤ a + 1 ∧
      cooldownValue cs ≤ (actStep sens tl cs p a).2 := by
  have hc := cooldownValue_neg hcs
  rw [actStep_eq]
  split_ifs with g1 g2 g3 <;> simp <;> omega

/-- A step that reports a trigger wrote the cooldown value and had a
post-increment counter above the trigger level. -/
theorem actStep_fired {sens : ℚ} {tl cs : Int} {p : ℚ} {a : Int}
    (h : (actStep sens tl cs p a).1 = true) :
    (actStep sens tl cs p a).2 = cooldownValue cs ∧ tl < a + 1 := by
  rw [actStep_eq] at h ⊢
  split_ifs at h ⊢ with g1 g2 g3 <;> simp_all

/-- The trace has one entry per scored probability. -/
theorem actTrace_length (sens : ℚ) (tl cs : Int) :
    ∀ (ps : List ℚ) (a : Int), (actTrace sens tl cs a ps).length = ps.length
  | [], _ => rfl
  | _ :: ps, a => by
    simp [actTrace, actTrace_length sens tl cs ps]

/-- A trace entry that reports a trigger is a real entry. -/
theorem fired_lt_length {sens : ℚ} {tl cs a : Int} {ps : List ℚ} {k : ℕ}
    (h : ((actTrace sens tl cs a ps).getD k (false, 0)).1 = true) :
    k < ps.length := by
  by_contra hk
  rw [List.getD_eq_default] at h
  · exact Bool.false_ne_true h
  · rw [actTrace_length]; omega

/-- Every trace entry keeps the activation counter inside
`[cooldownValue cs, trigger_level]`, provided the start value does. -/
theorem actTrace_bounds {sens : ℚ} {tl cs : Int} (hcs : 1 ≤ cs) (htl : 0 ≤ tl) :
    ∀ (ps : List ℚ) (a : Int), cooldownValue cs ≤ a → a ≤ tl → ∀ k : ℕ,
      cooldownValue cs ≤ ((actTrace sens tl cs a ps).getD k (false, 0)).2 ∧
        ((actTrace sens tl cs a ps).getD k (false, 0)).2 ≤ tl
  | [], a, _, _, k => by
    have hc := cooldownValue_neg hcs
    simp [actTrace]
    omega
  | p :: ps, a, h1, h2, k => by
    have hstep := @actStep_bounds sens tl cs hcs htl p a h1 h2
    match k with
    | 0 => simpa [actTrace] using hstep
    | Nat.succ k =>
      simpa [actTrace] using
        actTrace_bounds hcs htl ps _ hstep.1 hstep.2 k

/-- Along a trace the activation counter grows by at most one per
step: entry `k` is at most `a + (k + 1)`. -/
theorem actTrace_growth {sens : ℚ} {tl cs : Int} (hcs : 1 ≤ cs) :
    ∀ (ps : List ℚ) (a : Int), cooldownValue cs ≤ a → ∀ k : ℕ, k < ps.length →
      ((actTrace sens tl cs a ps).getD k (false, 0)).2 ≤ a + (k + 1)
  | [], _, _, k, hk => by simp at hk
  | p :: ps, a, h1, k, hk => by
    have hstep := @actStep_growth sens tl cs hcs p a h1
    match k with
    | 0 => simpa [actTrace] using hstep.1
    | Nat.succ k =>
      have := @actTrace_growth sens tl cs hcs ps _ hstep.2 k
        (by simpa using hk)
      simp only [actTrace, List.getD_cons_succ]
      omega

/-- Re-rooting a trace at the state reached after entry `i`. -/
theorem actTrace_getD_shift (sens : ℚ) (tl cs : Int) :
    ∀ (ps : List ℚ) (a : Int) (i m : ℕ), i < ps.length →
      (actTrace sens tl cs a ps).getD (i + 1 + m) (false, 0) =
        (actTrace sens tl cs ((actTrace sens tl cs a ps).getD i (false, 0)).2
          (ps.drop (i + 1))).getD m (false, 0)
  | [], _, i, _, hi => by simp at hi
  | p :: ps, a, 0, m, _ => by
    simp only [actTrace, List.getD_cons_zero, List.drop_succ_cons, List.drop_zero]
    have : 0 + 1 + m = m + 1 := by omega
    rw [this, List.getD_cons_succ]
  | p :: ps, a, Nat.succ i, m, hi => by
    have : i + 1 + 1 + m = (i + 1 + m) + 1 := by omega
    simp only [actTrace, this, List.getD_cons_succ, List.drop_succ_cons]
    exact actTrace_getD_shift sens tl cs ps _ i m (by simpa using hi)

/-- A trace entry that reports a trigger wrote the cooldown value, and
the counter just before that step was above `trigger_level - 1`. -/
theorem actTrace_fired_getD {sens : ℚ} {tl cs : Int} :
    ∀ (ps : List ℚ) (a : Int) (k : ℕ),
      ((actTrace sens tl cs a ps).getD k (false, 0)).1 = true →
      ((actTrace sens tl cs a ps).getD k (false, 0)).2 = cooldownValue cs ∧
        tl < (if k = 0 then a
          else ((actTrace sens tl cs a ps).getD (k - 1) (false, 0)).2) + 1
  | [], a, k, h => by simp [actTrace] at h
  | p :: ps, a, 0, h => by
    simp only [actTrace, List.getD_cons_zero] at h ⊢
    simpa using actStep_fired h
  | p :: ps, a, Nat.succ k, h => by
    simp only [actTrace, List.getD_cons_succ] at h ⊢
    have ih := actTrace_fired_getD ps
      (actStep sens tl cs p a).2 k h
    refine ⟨ih.1, ?_⟩
    match k with
    | 0 => simpa [actTrace] using ih.2
    | Nat.succ k => simpa using ih.2

/-- Under a stream of qualifying probabilities, starting inside
`[0, trigger_level]`, entry `i` of the trace fires exactly when the
counter reaches `trigger_level + 1` there. -/
theorem actTrace_all_qualifying {sens : ℚ} {tl cs : Int} :
    ∀ (ps : List ℚ) (a : Int) (i : ℕ), (∀ p ∈ ps, 1 - sens < p) →
      0 ≤ a → a ≤ tl → i < ps.length → (i : Int) ≤ tl - a →
      ((actTrace sens tl cs a ps).getD i (false, 0)).1 =
        decide (a + (i : Int) = tl)
  | [], _, i, _, _, _, hi, _ => by simp at hi
  | p :: ps, a, i, hq, ha0, hatl, hi, hitl => by
    have hqp : 1 - sens < p := hq p (List.mem_cons_self p ps)
    by_cases heq : a = tl
    · have hi0 : i = 0 := by omega
      subst hi0
      have hstep : actStep sens tl cs p a = (true, cooldownValue cs) := by
        rw [actStep_eq, if_pos (Or.inl hqp),
          if_pos (Or.inl (show tl < a + 1 by omega))]
        simp [show tl < a + 1 by omega]
      simp only [actTrace, List.getD_cons_zero, hstep]
      simp [heq]
    · have halt : a < tl := lt_of_le_of_ne hatl heq
      have hstep : actStep sens tl cs p a = (false, a + 1) := by
        rw [actStep_eq, if_pos (Or.inl hqp), if_neg ?hc]
        case hc =>
          push_neg
          exact ⟨by omega, fun _ => by omega⟩
      cases i with
      | zero => simp [actTrace, hstep, heq]
      | succ i =>
        have hq2 : ∀ q ∈ ps, 1 - sens < q :=
          fun q hqm => hq q (List.mem_cons_of_mem p hqm)
        have hb1 : (0 : Int) ≤ a + 1 := by omega
        have hb2 : a + 1 ≤ tl := by omega
        have hb3 : i < ps.length := by simpa using hi
        have hb4 : (i : Int) ≤ tl - (a + 1) := by push_cast at hitl; omega
        have ih := @actTrace_all_qualifying sens tl cs ps (a + 1) i hq2 hb1 hb2 hb3 hb4
        simp only [actTrace, hstep, List.getD_cons_succ]
        rw [ih, decide_eq_decide]
        push_cast
        omega

/-- C1: starting from activation 0, for a sequence of probabilities
each strictly above `1 - sensitivity` (with `trigger_level ≥ 0`), the
trigger fires exactly on the `(trigger_level + 1)`-th qualifying
probability (index `trigger_level`, 0-based) and on no earlier one. -/
theorem trigger_fires_exactly_at_trigger_level (sens : ℚ) (tl cs : Int)
    (htl : 0 ≤ tl) (probs : List ℚ) (hq : ∀ p ∈ probs, 1 - sens < p)
    (hlen : tl.toNat < probs.length) (i : ℕ) (hi : i ≤ tl.toNat) :
    ((actTrace sens tl cs 0 probs).getD i (false, 0)).1 =
      decide ((i : Int) = tl) := by
  have h := @actTrace_all_qualifying sens tl cs probs 0 i hq le_rfl htl
    (by omega) (by omega)
  rw [h, decide_eq_decide]
  omega

/-- C1 witness: with `sensitivity = 7/10` and `trigger_level = 2`,
three qualifying probabilities fire on the third. -/
theorem trigger_fires_exactly_at_trigger_level_witness :
    ((actTrace (7/10) 2 2048 0 [1, 1, 1]).getD 2 (false, 0)).1 =
      decide ((2 : ℕ) = (2 : Int)) :=
  trigger_fires_exactly_at_trigger_level (7/10) 2 2048 (by omega) [1, 1, 1]
    (by intro p hp; fin_cases hp <;> norm_num) (by simp) 2 (by omega)

/-- C2 counterexample: with `chunk_size = 3000` the trigger condition
holds, yet the activation counter is set to `-6`, not to
`-floor(8 * 2048 / chunk_size) = -5` as the claim states. -/
theorem cooldown_written_value_cex :
    (actStep (7/10) 0 3000 1 0).1 = true ∧
    (actStep (7/10) 0 3000 1 0).2 = -6 ∧
    -(Int.fdiv (8 * 2048) 3000) = -5 := by
  refine ⟨?_, ?_, by decide⟩ <;>
  · rw [actStep_eq, if_pos (Or.inl (by norm_num)),
      if_pos (Or.inl (by norm_num))]
    simp [cooldownValue]

/-- C2 (amended): whenever the machine fires, or receives an activated
frame while the counter is negative after incrementing, the counter is
set to exactly `floor(-(8 * 2048) / chunk_size)` — Python floor
division applied to the negative numerator, which is
`-ceil(16384 / chunk_size)`, not `-floor(16384 / chunk_size)`. -/
theorem cooldown_written_value (sens : ℚ) (tl cs : Int) (p : ℚ) (a : Int)
    (hbranch : 1 - sens < p ∨ a < 0)
    (hcond : tl < a + 1 ∨ (1 - sens < p ∧ a + 1 < 0)) :
    (actStep sens tl cs p a).2 = Int.fdiv (-(8 * 2048)) cs := by
  rw [actStep_eq, if_pos hbranch, if_pos hcond]
  rfl

/-- C2 witness: a firing step with the default `chunk_size = 2048`
writes `floor(-16384 / 2048) = -8`. -/
theorem cooldown_written_value_witness :
    (actStep (7/10) 0 2048 1 0).2 = Int.fdiv (-(8 * 2048)) 2048 :=
  cooldown_written_value (7/10) 0 2048 1 0 (Or.inl (by norm_num))
    (Or.inl (by omega))

/-- C10: with `trigger_level ≥ 0` and `chunk_size ≥ 1`, the activation
counter is `0` after construction and after `reset()`, and stays inside
`[floor(-16384 / chunk_size), trigger_level]` after every completed
scoring step of a run started at 0. -/
theorem activation_counter_invariant (sens : ℚ) (tl cs : Int)
    (htl : 0 ≤ tl) (hcs : 1 ≤ cs) (cfg : EngineConfig) (s : EngineState)
    (probs : List ℚ) (k : ℕ) :
    (initEngine cfg).activation = 0 ∧
    (resetEngine cfg s).activation = 0 ∧
    Int.fdiv (-16384) cs ≤ ((actTrace sens tl cs 0 probs).getD k (false, 0)).2 ∧
    ((actTrace sens tl cs 0 probs).getD k (false, 0)).2 ≤ tl := by
  have hcv : cooldownValue cs = Int.fdiv (-16384) cs := by norm_num [cooldownValue]
  have hc := cooldownValue_neg hcs
  have hb := @actTrace_bounds sens tl cs hcs htl probs 0 (by omega) htl k
  exact ⟨rfl, rfl, by rw [← hcv]; exact hb.1, hb.2⟩

/-- C10 witness: a concrete engine configuration and a single
qualifying probability. -/
theorem activation_counter_invariant_witness :
    (initEngine ⟨7/10, 4, 2048, 29, 13, 3200, 1600⟩).activation = 0 ∧
    (resetEngine ⟨7/10, 4, 2048, 29, 13, 3200, 1600⟩
      (initEngine ⟨7/10, 4, 2048, 29, 13, 3200, 1600⟩)).activation = 0 ∧
    Int.fdiv (-16384) 2048 ≤ ((actTrace (7/10) 4 2048 0 [1]).getD 0 (false, 0)).2 ∧
    ((actTrace (7/10) 4 2048 0 [1]).getD 0 (false, 0)).2 ≤ 4 :=
  activation_counter_invariant (7/10) 4 2048 (by omega) (by omega)
    ⟨7/10, 4, 2048, 29, 13, 3200, 1600⟩
    (initEngine ⟨7/10, 4, 2048, 29, 13, 3200, 1600⟩) [1] 0

/-- Trace level cooldown suppression: after a fired scoring step the
counter is negative, a later trigger needs a post-increment counter
above `trigger_level`, and two fired steps are more than
`floor(16384 / chunk_size)` steps apart. -/
theorem actTrace_cooldown_suppression (sens : ℚ) (tl cs : Int) (htl : 0 ≤ tl)
    (hcs : 1 ≤ cs) (a0 : Int) (probs : List ℚ) (i j : ℕ) (hij : i < j)
    (hfi : ((actTrace sens tl cs a0 probs).getD i (false, 0)).1 = true)
    (hfj : ((actTrace sens tl cs a0 probs).getD j (false, 0)).1 = true) :
    ((actTrace sens tl cs a0 probs).getD i (false, 0)).2 < 0 ∧
    tl < ((actTrace sens tl cs a0 probs).getD (j - 1) (false, 0)).2 + 1 ∧
    Int.fdiv 16384 cs < (j : Int) - (i : Int) := by
  have hc := cooldownValue_neg hcs
  have hilen : i < probs.length := fired_lt_length hfi
  have hjlen : j < probs.length := fired_lt_length hfj
  have hi2 := actTrace_fired_getD probs a0 i hfi
  have hj2 := actTrace_fired_getD probs a0 j hfj
  rw [if_neg (show ¬ j = 0 by omega)] at hj2
  refine ⟨by rw [hi2.1]; exact hc, hj2.2, ?_⟩
  by_cases hji : j = i + 1
  · exfalso
    have hpre : ((actTrace sens tl cs a0 probs).getD (j - 1) (false, 0)).2 =
        cooldownValue cs := by
      have : j - 1 = i := by omega
      rw [this]
      exact hi2.1
    have := hj2.2
    omega
  · have hj2i : i + 2 ≤ j := by omega
    set m := j - 1 - (i + 1) with hm
    have hidx : j - 1 = i + 1 + m := by omega
    have hmlen : m < (probs.drop (i + 1)).length := by
      rw [List.length_drop]
      omega
    have hshift := actTrace_getD_shift sens tl cs probs a0 i m hilen
    have hgrow := @actTrace_growth sens tl cs hcs
      (probs.drop (i + 1))
      ((actTrace sens tl cs a0 probs).getD i (false, 0)).2 hi2.1.ge m hmlen
    rw [hi2.1] at hgrow
    have hstate : ((actTrace sens tl cs a0 probs).getD (j - 1) (false, 0)).2 ≤
        cooldownValue cs + ((m : Int) + 1) := by
      rw [hidx, hshift, hi2.1]
      exact hgrow
    have hfin := fdiv_add_cooldownValue_nonpos hcs
    have hlast := hj2.2
    omega

/-- Truncation toward zero is the identity on integers. -/
theorem truncQ_intCast (v : Int) : truncQ (v : ℚ) = v := by
  rw [truncQ]
  split_ifs with h
  · exact Int.floor_intCast v
  · rw [show -((v : Int) : ℚ) = (((-v : Int)) : ℚ) by push_cast; ring,
      Int.floor_intCast]
    ring

/-- Truncation toward zero is monotone. -/
theorem truncQ_mono {x y : ℚ} (h : x ≤ y) : truncQ x ≤ truncQ y := by
  rw [truncQ, truncQ]
  split_ifs with hx hy hy2
  · exact Int.floor_le_floor h
  · exact absurd (le_trans hx h) hy
  · have h1 : 0 ≤ ⌊y⌋ := Int.floor_nonneg.mpr hy2
    have h2 : 0 ≤ ⌊-x⌋ := Int.floor_nonneg.mpr (by push_neg at hx; linarith)
    omega
  · have := Int.floor_le_floor (show -y ≤ -x by linarith)
    omega

/-- For a sample in `[-1, 1)` the truncated scaled value stays inside
the signed 16-bit range. -/
theorem truncQ_scaled_bounds {x : ℚ} (h1 : -1 ≤ x) (h2 : x < 1) :
    -32768 ≤ truncQ (x * 32768) ∧ truncQ (x * 32768) ≤ 32767 := by
  rw [truncQ]
  split_ifs with hx
  · have hge : (0 : Int) ≤ ⌊x * 32768⌋ := Int.floor_nonneg.mpr hx
    have hlt : ⌊x * 32768⌋ < 32768 := by
      rw [Int.floor_lt]
      push_cast
      linarith
    omega
  · push_neg at hx
    have hge : (0 : Int) ≤ ⌊-(x * 32768)⌋ := Int.floor_nonneg.mpr (by linarith)
    have hlt : ⌊-(x * 32768)⌋ < 32769 := by
      rw [Int.floor_lt]
      push_cast
      linarith
    omega

/-- Concrete evaluation: the in-range sample `1/2` encodes to 16384. -/
theorem sampleToInt16_half : sampleToInt16 (1 / 2) = 16384 := by
  have ht : truncQ ((1 / 2 : ℚ) * 32768) = 16384 := by
    rw [truncQ, if_pos (by norm_num),
      show ((1 / 2 : ℚ) * 32768) = ((16384 : Int) : ℚ) by norm_num,
      Int.floor_intCast]
  rw [sampleToInt16, ht]
  decide

/-- Concrete evaluation: the out-of-range sample `3/2` wraps to
`-16384` instead of saturating at 32767. -/
theorem sampleToInt16_three_halves : sampleToInt16 (3 / 2) = -16384 := by
  have ht : truncQ ((3 / 2 : ℚ) * 32768) = 49152 := by
    rw [truncQ, if_pos (by norm_num),
      show ((3 / 2 : ℚ) * 32768) = ((49152 : Int) : ℚ) by norm_num,
      Int.floor_intCast]
  rw [sampleToInt16, ht]
  decide

/-- C9 counterexample: the encoder of `audio_to_buffer` is neither
monotone over the whole domain nor saturating above the range: the
sample `3/2` encodes to `-16384` (wraparound), below the encoding
16384 of the smaller sample `1/2`. -/
theorem encoder_saturation_cex :
    ¬ ((∀ x y : ℚ, x ≤ y → sampleToInt16 x ≤ sampleToInt16 y) ∧
       (∀ x : ℚ, 1 ≤ x → 32767 ≤ sampleToInt16 x)) := by
  intro h
  have h1 := h.1 (1 / 2) (3 / 2) (by norm_num)
  rw [sampleToInt16_half, sampleToInt16_three_halves] at h1
  omega

/-- C9 (amended): the encoder is monotone on the representable range
`[-1, 1)`, and outside it wraps modulo 2^16 (the encoded value is
congruent to the truncated scaled sample modulo 65536 and lies in
`[-32768, 32767]`) rather than saturating. -/
theorem encoder_monotone_in_range_and_wraps (x y : ℚ) (hx : -1 ≤ x)
    (hxy : x ≤ y) (hy : y < 1) :
    sampleToInt16 x ≤ sampleToInt16 y ∧
    ∀ q : ℚ, -32768 ≤ sampleToInt16 q ∧ sampleToInt16 q ≤ 32767 ∧
      (sampleToInt16 q - truncQ (q * 32768)) % 65536 = 0 := by
  constructor
  · have hbx := truncQ_scaled_bounds hx (lt_of_le_of_lt hxy hy)
    have hby := truncQ_scaled_bounds (le_trans hx hxy) hy
    have hm := truncQ_mono (mul_le_mul_of_nonneg_right hxy
      (by norm_num : (0 : ℚ) ≤ 32768))
    rw [sampleToInt16, sampleToInt16,
      Int.emod_eq_of_lt (by omega) (by omega),
      Int.emod_eq_of_lt (by omega) (by omega)]
    omega
  · intro q
    rw [sampleToInt16]
    have h1 := Int.emod_nonneg (truncQ (q * 32768) + 32768)
      (show (65536 : Int) ≠ 0 by omega)
    have h2 := Int.emod_lt_of_pos (truncQ (q * 32768) + 32768)
      (show (0 : Int) < 65536 by omega)
    exact ⟨by omega, by omega, by omega⟩

/-- C9 witness: monotone on two in-range samples, plus the wrap
characterization. -/
theorem encoder_monotone_in_range_and_wraps_witness :
    sampleToInt16 (-(1 / 2)) ≤ sampleToInt16 (1 / 2) ∧
    ∀ q : ℚ, -32768 ≤ sampleToInt16 q ∧ sampleToInt16 q ≤ 32767 ∧
      (sampleToInt16 q - truncQ (q * 32768)) % 65536 = 0 :=
  encoder_monotone_in_range_and_wraps (-(1 / 2)) (1 / 2) (by norm_num)
    (by norm_num) (by norm_num)

/-- An odd-length byte buffer fails to decode. -/
theorem buffer_to_audio_odd : ∀ bs : List Nat, bs.length % 2 = 1 →
    buffer_to_audio bs = none
  | [], h => by simp at h
  | [_], _ => rfl
  | lo :: hi :: rest, h => by
    have hr : rest.length % 2 = 1 := by
      simp only [List.length_cons] at h
      omega
    rw [buffer_to_audio, buffer_to_audio_odd rest hr]

/-- An even-length byte buffer decodes completely: one sample per byte
pair, in order, each the little-endian signed 16-bit value divided by
32768. -/
theorem buffer_to_audio_even : ∀ bs : List Nat, bs.length % 2 = 0 →
    ∃ l, buffer_to_audio bs = some l ∧ l.length = bs.length / 2 ∧
      ∀ i : ℕ, i < l.length →
        l.getD i 0 =
          (int16OfBytes (bs.getD (2 * i) 0) (bs.getD (2 * i + 1) 0) : ℚ) / 32768
  | [], _ => ⟨[], rfl, rfl, by simp⟩
  | [_], h => by simp at h
  | lo :: hi :: rest, h => by
    have hr : rest.length % 2 = 0 := by
      simp only [List.length_cons] at h
      omega
    obtain ⟨l, hl, hlen, hidx⟩ := buffer_to_audio_even rest hr
    refine ⟨(int16OfBytes lo hi : ℚ) / 32768 :: l, ?_, ?_, ?_⟩
    · rw [buffer_to_audio, hl]
    · simp only [List.length_cons, hlen]
      omega
    · intro i hi2
      cases i with
      | zero => simp
      | succ i =>
        have ih := hidx i (by simpa using hi2)
        have g1 : (lo :: hi :: rest).getD (2 * (i + 1)) 0 = rest.getD (2 * i) 0 := by
          have e : 2 * (i + 1) = (2 * i + 1) + 1 := by ring
          rw [e, List.getD_cons_succ, List.getD_cons_succ]
        have g2 : (lo :: hi :: rest).getD (2 * (i + 1) + 1) 0 =
            rest.getD (2 * i + 1) 0 := by
          have e : 2 * (i + 1) + 1 = ((2 * i + 1) + 1) + 1 := by ring
          rw [e, List.getD_cons_succ, List.getD_cons_succ]
        rw [List.getD_cons_succ, ih, g1, g2]

/-- C7: a byte buffer of odd length fails to decode (`none`, the
`InvalidAudioLength` condition, with no partial decode); an even-length
buffer decodes to exactly `len / 2` samples, in order, each the
corresponding little-endian signed 16-bit integer divided by 32768. -/
theorem bytes_to_samples_spec (bs : List Nat) :
    (buffer_to_audio bs = none ↔ bs.length % 2 = 1) ∧
    ∀ l, buffer_to_audio bs = some l →
      l.length = bs.length / 2 ∧
      ∀ i : ℕ, i < l.length →
        l.getD i 0 =
          (int16OfBytes (bs.getD (2 * i) 0) (bs.getD (2 * i + 1) 0) : ℚ) / 32768 := by
  constructor
  · constructor
    · intro hn
      by_contra hodd
      obtain ⟨l, hl, -, -⟩ := buffer_to_audio_even bs (by omega)
      rw [hl] at hn
      exact Option.noConfusion hn
    · exact buffer_to_audio_odd bs
  · intro l hl
    have hev : bs.length % 2 = 0 := by
      by_contra hh
      rw [buffer_to_audio_odd bs (by omega)] at hl
      exact Option.noConfusion hl
    obtain ⟨l2, hl2, hlen, hidx⟩ := buffer_to_audio_even bs hev
    rw [hl] at hl2
    have hll : l = l2 := Option.some.inj hl2
    subst hll
    exact ⟨hlen, hidx⟩

/-- C7 witness: the two bytes `[0, 128]` decode to the single sample
`-1`. -/
theorem bytes_to_samples_spec_witness :
    [(-1 : ℚ)].getD 0 0 =
      (int16OfBytes (([0, 128] : List Nat).getD (2 * 0) 0)
        (([0, 128] : List Nat).getD (2 * 0 + 1) 0) : ℚ) / 32768 := by
  have hdec : buffer_to_audio [0, 128] = some [-1] := by
    have h1 : int16OfBytes 0 128 = -32768 := by decide
    simp only [buffer_to_audio, h1]
    norm_num
  exact ((bytes_to_samples_spec [0, 128]).2 [-1] hdec).2 0 (by simp)

/-- Re-encoding the sample decoded from two bytes reproduces the
bytes. -/
theorem sampleToBytes_int16 (lo hi : Nat) (hlo : lo < 256) (hhi : hi < 256) :
    sampleToBytes ((int16OfBytes lo hi : ℚ) / 32768) = [lo, hi] := by
  have ht : truncQ ((int16OfBytes lo hi : ℚ) / 32768 * 32768) =
      int16OfBytes lo hi := by
    rw [div_mul_cancel₀ _ (by norm_num : (32768 : ℚ) ≠ 0)]
    exact truncQ_intCast _
  have hv : (int16OfBytes lo hi) % (65536 : Int) = (lo : Int) + 256 * hi := by
    simp only [int16OfBytes]
    split_ifs with h
    · exact Int.emod_eq_of_lt (by omega) (by omega)
    · rw [show ((lo : Int) + 256 * hi - 65536) =
          ((lo : Int) + 256 * hi) + (-1) * 65536 by ring,
        Int.add_mul_emod_self]
      exact Int.emod_eq_of_lt (by omega) (by omega)
  simp only [sampleToBytes, ht, hv]
  have h1 : (((lo : Int) + 256 * hi).toNat) % 256 = lo := by omega
  have h2 : (((lo : Int) + 256 * hi).toNat) / 256 = hi := by omega
  rw [h1, h2]

/-- Decode-then-encode is the identity on even-length byte buffers. -/
theorem decode_encode : ∀ bs : List Nat, (∀ b ∈ bs, b < 256) →
    bs.length % 2 = 0 →
    ∃ l, buffer_to_audio bs = some l ∧ audio_to_buffer l = bs
  | [], _, _ => ⟨[], rfl, rfl⟩
  | [_], _, h => by simp at h
  | lo :: hi :: rest, hb, h => by
    have hr : rest.length % 2 = 0 := by
      simp only [List.length_cons] at h
      omega
    obtain ⟨l, hl, he⟩ := decode_encode rest
      (fun b hbm => hb b (List.mem_cons_of_mem _ (List.mem_cons_of_mem _ hbm)))
      hr
    refine ⟨(int16OfBytes lo hi : ℚ) / 32768 :: l, ?_, ?_⟩
    · rw [buffer_to_audio, hl]
    · rw [audio_to_buffer, he,
        sampleToBytes_int16 lo hi (hb lo (by simp)) (hb hi (by simp))]
      rfl

/-- C8: for an even-length byte buffer, decoding then re-encoding
reproduces the buffer exactly (so in particular up to 16-bit
quantization), and the decode-then-encode composition is idempotent. -/
theorem codec_round_trip (bs : List Nat) (hb : ∀ b ∈ bs, b < 256)
    (he : bs.length % 2 = 0) :
    (buffer_to_audio bs).map audio_to_buffer = some bs ∧
    ((buffer_to_audio bs).map audio_to_buffer).bind
      (fun b2 => (buffer_to_audio b2).map audio_to_buffer) = some bs := by
  obtain ⟨l, hl, hEnc⟩ := decode_encode bs hb he
  have h1 : (buffer_to_audio bs).map audio_to_buffer = some bs := by
    rw [hl]
    simp [hEnc]
  refine ⟨h1, ?_⟩
  rw [h1]
  simp [h1]

/-- C8 witness: the byte buffer `[0, 128]` round-trips exactly. -/
theorem codec_round_trip_witness :
    (buffer_to_audio [0, 128]).map audio_to_buffer = some [0, 128] ∧
    ((buffer_to_audio [0, 128]).map audio_to_buffer).bind
      (fun b2 => (buffer_to_audio b2).map audio_to_buffer) = some [0, 128] :=
  codec_round_trip [0, 128] (by decide) (by decide)


/-- Evaluation: the default window size is 1600 samples. -/
theorem defaultParams_window_samples : defaultParams.window_samples = 1600 := by
  norm_num [ListenerParams.window_samples, truncQ, defaultParams]

/-- Evaluation: the default hop size is 800 samples. -/
theorem defaultParams_hop_samples : defaultParams.hop_samples = 800 := by
  norm_num [ListenerParams.hop_samples, truncQ, defaultParams]

/-- Evaluation: the default buffer size is 24000 samples. -/
theorem defaultParams_buffer_samples : defaultParams.buffer_samples = 24000 := by
  have hs : truncQ ((defaultParams.sample_rate : ℚ) * defaultParams.buffer_t
      + 1 / 2) = 24000 := by
    norm_num [truncQ, defaultParams]
  rw [ListenerParams.buffer_samples, defaultParams_hop_samples, hs]
  decide

/-- C6: for the default configuration (`sample_rate = 16000`,
`buffer_t = 1.5`, `window_t = 0.1`, `hop_t = 0.05`):
`window_samples = 1600`, `hop_samples = 800`, `buffer_samples` is a
multiple of 800 and at most 24000, and
`n_features = 1 + floor((buffer_samples - 1600) / 800)`; moreover for
every configuration with positive `hop_samples`, `buffer_samples` is a
multiple of `hop_samples`. -/
theorem listener_geometry :
    defaultParams.window_samples = 1600 ∧
    defaultParams.hop_samples = 800 ∧
    (800 : Int) ∣ defaultParams.buffer_samples ∧
    defaultParams.buffer_samples ≤ 24000 ∧
    defaultParams.n_features =
      1 + ⌊(((defaultParams.buffer_samples : ℚ) - 1600) / 800)⌋ ∧
    ∀ p : ListenerParams, 0 < p.hop_samples →
      p.hop_samples ∣ p.buffer_samples := by
  refine ⟨defaultParams_window_samples, defaultParams_hop_samples, ?_, ?_, ?_, ?_⟩
  · rw [defaultParams_buffer_samples]
    decide
  · rw [defaultParams_buffer_samples]
  · rw [ListenerParams.n_features, defaultParams_hop_samples,
      defaultParams_window_samples, defaultParams_buffer_samples]
    norm_num
  · intro p _
    rw [ListenerParams.buffer_samples]
    exact dvd_mul_right p.hop_samples _

/-- C6 witness: the divisibility conjunct applied to the default
configuration. -/
theorem listener_geometry_witness :
    defaultParams.hop_samples ∣ defaultParams.buffer_samples :=
  listener_geometry.2.2.2.2.2 defaultParams
    (by rw [defaultParams_hop_samples]; decide)

/-- The windowing part of a loop iteration never touches the
activation counter, the trigger flag or the stored probability. -/
theorem insertFrames_preserves (cfg : EngineConfig)
    (mfccs : List (List ℚ)) (s : EngineState) :
    (insertFrames cfg mfccs s).1.activation = s.activation ∧
    (insertFrames cfg mfccs s).1.is_found = s.is_found ∧
    (insertFrames cfg mfccs s).1.probability = s.probability := by
  rw [insertFrames]
  split_ifs <;> exact ⟨rfl, rfl, rfl⟩

/-- C4: when a scoring step inside the `update` loop produces a
probability outside `[0, 1]`, the step is discarded: the loop
continues on the remaining buffered audio with the state produced by
the windowing alone, whose activation counter, trigger flag and stored
probability are exactly those from before the scoring step. -/
theorem out_of_range_prob_discarded (cfg : EngineConfig)
    (extract : List ℚ → List (List ℚ)) (score : List (List ℚ) → ℚ)
    (fuel : Nat) (s : EngineState) (audio : List ℚ)
    (hlen : cfg.window_bytes ≤ s.chunk_buffer.length)
    (hdec : buffer_to_audio s.chunk_buffer = some audio)
    (hfull : ¬ (insertFrames cfg (extract audio) s).2 < cfg.n_features)
    (hoor : score (insertFrames cfg (extract audio) s).1.inputs < 0 ∨
      1 < score (insertFrames cfg (extract audio) s).1.inputs) :
    updateLoop cfg extract score (fuel + 1) s =
      updateLoop cfg extract score fuel (insertFrames cfg (extract audio) s).1 ∧
    (insertFrames cfg (extract audio) s).1.activation = s.activation ∧
    (insertFrames cfg (extract audio) s).1.is_found = s.is_found ∧
    (insertFrames cfg (extract audio) s).1.probability = s.probability := by
  refine ⟨?_, insertFrames_preserves cfg (extract audio) s⟩
  simp only [updateLoop, hdec, if_neg (not_lt.mpr hlen)]
  rw [if_neg hfull, if_pos hoor]

/-- C4 witness: a tiny configuration with a one-frame buffer and a
scorer stuck at probability 2. -/
theorem out_of_range_prob_discarded_witness :
    updateLoop ⟨7/10, 4, 2048, 1, 1, 2, 2⟩ (fun _ => [[0]]) (fun _ => 2)
        (0 + 1) ⟨[[0]], 0, [0, 0], 0, false, none⟩ =
      updateLoop ⟨7/10, 4, 2048, 1, 1, 2, 2⟩ (fun _ => [[0]]) (fun _ => 2) 0
        (insertFrames ⟨7/10, 4, 2048, 1, 1, 2, 2⟩
          ((fun _ => [[0]]) [(0 : ℚ)]) ⟨[[0]], 0, [0, 0], 0, false, none⟩).1 ∧
    (insertFrames ⟨7/10, 4, 2048, 1, 1, 2, 2⟩ ((fun _ => [[0]]) [(0 : ℚ)])
      ⟨[[0]], 0, [0, 0], 0, false, none⟩).1.activation =
      (⟨[[0]], 0, [0, 0], 0, false, none⟩ : EngineState).activation ∧
    (insertFrames ⟨7/10, 4, 2048, 1, 1, 2, 2⟩ ((fun _ => [[0]]) [(0 : ℚ)])
      ⟨[[0]], 0, [0, 0], 0, false, none⟩).1.is_found =
      (⟨[[0]], 0, [0, 0], 0, false, none⟩ : EngineState).is_found ∧
    (insertFrames ⟨7/10, 4, 2048, 1, 1, 2, 2⟩ ((fun _ => [[0]]) [(0 : ℚ)])
      ⟨[[0]], 0, [0, 0], 0, false, none⟩).1.probability =
      (⟨[[0]], 0, [0, 0], 0, false, none⟩ : EngineState).probability := by
  have hdec : buffer_to_audio
      (⟨[[0]], 0, [0, 0], 0, false, none⟩ : EngineState).chunk_buffer =
      some [(0 : ℚ)] := by
    have h1 : int16OfBytes 0 0 = 0 := by decide
    simp only [buffer_to_audio, h1]
    norm_num
  refine out_of_range_prob_discarded ⟨7/10, 4, 2048, 1, 1, 2, 2⟩
    (fun _ => [[0]]) (fun _ => 2) 0 ⟨[[0]], 0, [0, 0], 0, false, none⟩
    [(0 : ℚ)] (by simp) hdec (by simp [insertFrames]) ?_
  right
  norm_num

/-- C5: after `reset()` the engine behaves, for every sequence of
subsequent input chunks and any extractor and scorer, exactly like a
freshly constructed instance with the same configuration: every
`update` call returns the same trigger flag and exposes the same
probability.  (`reset` zeroes the rolling buffer, cursor, accumulator,
activation and flag without reloading the model; the one field it does
not touch, the stored probability, is cleared by `update` before any
processing.) -/
theorem reset_behaves_like_fresh (cfg : EngineConfig)
    (extract : List ℚ → List (List ℚ)) (score : List (List ℚ) → ℚ)
    (s : EngineState) (chunks : List (List Nat)) :
    runUpdates cfg extract score (resetEngine cfg s) chunks =
      runUpdates cfg extract score (initEngine cfg) chunks := by
  cases chunks with
  | nil => rfl
  | cons c cs =>
    have h : update cfg extract score (resetEngine cfg s) c =
        update cfg extract score (initEngine cfg) c := rfl
    simp only [runUpdates, h]

/-- If a run of the `update` loop starts with the trigger flag down
and ends with it up, the final activation counter is the cooldown
value (the loop breaks immediately after firing). -/
theorem updateLoop_fired_act (cfg : EngineConfig)
    (extract : List ℚ → List (List ℚ)) (score : List (List ℚ) → ℚ) :
    ∀ (fuel : Nat) (s : EngineState), s.is_found = false →
      (updateLoop cfg extract score fuel s).is_found = true →
      (updateLoop cfg extract score fuel s).activation =
        cooldownValue cfg.chunk_size
  | 0, s, hsf, hf => by
    rw [updateLoop] at hf
    rw [hsf] at hf
    exact absurd hf (by simp)
  | fuel + 1, s, hsf, hf => by
    rw [updateLoop] at hf ⊢
    by_cases h1 : s.chunk_buffer.length < cfg.window_bytes
    · rw [if_pos h1] at hf ⊢
      rw [hsf] at hf
      exact absurd hf (by simp)
    · rw [if_neg h1] at hf ⊢
      cases h2 : buffer_to_audio s.chunk_buffer with
      | none =>
        simp only [h2] at hf ⊢
        rw [hsf] at hf
        exact absurd hf (by simp)
      | some audio =>
        simp only [h2] at hf ⊢
        have hpres := insertFrames_preserves cfg (extract audio) s
        by_cases h3 : (insertFrames cfg (extract audio) s).2 < cfg.n_features
        · rw [if_pos h3] at hf ⊢
          exact updateLoop_fired_act cfg extract score fuel _
            (by rw [hpres.2.1, hsf]) hf
        · rw [if_neg h3] at hf ⊢
          by_cases h4 : score (insertFrames cfg (extract audio) s).1.inputs < 0 ∨
              1 < score (insertFrames cfg (extract audio) s).1.inputs
          · rw [if_pos h4] at hf ⊢
            exact updateLoop_fired_act cfg extract score fuel _
              (by rw [hpres.2.1, hsf]) hf
          · rw [if_neg h4] at hf ⊢
            by_cases h5 : (actStep cfg.sensitivity cfg.trigger_level
                cfg.chunk_size
                (score (insertFrames cfg (extract audio) s).1.inputs)
                (insertFrames cfg (extract audio) s).1.activation).1 = true
            · rw [if_pos h5] at hf ⊢
              exact (actStep_fired h5).1
            · rw [if_neg h5] at hf ⊢
              exact updateLoop_fired_act cfg extract score fuel _
                (by simp [hpres.2.1, hsf]) hf

/-- C3: an `update` loop run that reports `fired = true` ends with a
negative activation counter; along the stream of scored probabilities,
a later trigger requires the counter (post-increment) to have climbed
back above `trigger_level`; and any two fired scoring steps are more
than `floor(16384 / chunk_size)` scored frames apart, so at most one
trigger occurs per cooldown period of that length, even under
continuous high-probability input. -/
theorem cooldown_suppression (cfg : EngineConfig)
    (extract : List ℚ → List (List ℚ)) (score : List (List ℚ) → ℚ)
    (htl : 0 ≤ cfg.trigger_level) (hcs : 1 ≤ cfg.chunk_size)
    (fuel : Nat) (s : EngineState) (hsf : s.is_found = false)
    (a0 : Int) (probs : List ℚ) (i j : ℕ) (hij : i < j)
    (hfi : ((actTrace cfg.sensitivity cfg.trigger_level cfg.chunk_size
      a0 probs).getD i (false, 0)).1 = true)
    (hfj : ((actTrace cfg.sensitivity cfg.trigger_level cfg.chunk_size
      a0 probs).getD j (false, 0)).1 = true) :
    ((updateLoop cfg extract score fuel s).is_found = true →
      (updateLoop cfg extract score fuel s).activation < 0) ∧
    ((actTrace cfg.sensitivity cfg.trigger_level cfg.chunk_size
      a0 probs).getD i (false, 0)).2 < 0 ∧
    cfg.trigger_level < ((actTrace cfg.sensitivity cfg.trigger_level
      cfg.chunk_size a0 probs).getD (j - 1) (false, 0)).2 + 1 ∧
    Int.fdiv 16384 cfg.chunk_size < (j : Int) - (i : Int) := by
  refine ⟨fun hf => ?_,
    actTrace_cooldown_suppression cfg.sensitivity cfg.trigger_level
      cfg.chunk_size htl hcs a0 probs i j hij hfi hfj⟩
  rw [updateLoop_fired_act cfg extract score fuel s hsf hf]
  exact cooldownValue_neg hcs

/-- C3 witness: `chunk_size = 16384` gives cooldown value `-1`; with
`trigger_level = 0` and constant probability 1 the machine fires at
indices 0 and 2, which are more than `floor(16384/16384) = 1` apart;
the loop run uses zero fuel. -/
theorem cooldown_suppression_witness :
    ((updateLoop ⟨7/10, 0, 16384, 1, 1, 2, 2⟩ (fun _ => [[0]]) (fun _ => 2)
        0 (initEngine ⟨7/10, 0, 16384, 1, 1, 2, 2⟩)).is_found = true →
      (updateLoop ⟨7/10, 0, 16384, 1, 1, 2, 2⟩ (fun _ => [[0]]) (fun _ => 2)
        0 (initEngine ⟨7/10, 0, 16384, 1, 1, 2, 2⟩)).activation < 0) ∧
    ((actTrace (7/10) 0 16384 0 [1, 1, 1]).getD 0 (false, 0)).2 < 0 ∧
    (0 : Int) < ((actTrace (7/10) 0 16384 0 [1, 1, 1]).getD (2 - 1)
      (false, 0)).2 + 1 ∧
    Int.fdiv 16384 16384 < ((2 : ℕ) : Int) - ((0 : ℕ) : Int) := by
  have hp : (1 : ℚ) - 7/10 < 1 := by norm_num
  have hcv : cooldownValue 16384 = -1 := by decide
  refine cooldown_suppression ⟨7/10, 0, 16384, 1, 1, 2, 2⟩
    (fun _ => [[0]]) (fun _ => 2) (by decide) (by decide) 0
    (initEngine ⟨7/10, 0, 16384, 1, 1, 2, 2⟩) rfl 0
    [1, 1, 1] 0 2 (by omega) ?_ ?_
  · simp [actTrace, actStep, hp, hcv]
  · simp [actTrace, actStep, hp, hcv]
